import Mathlib

/-!
Verification of the crumb task-store core (`src/services/tasks.ts`, schema in
`src/db.ts`).

The SQLite `tasks` table is embedded as a list of rows in insertion (rowid)
order.  SQL timestamps `datetime('now')` are modelled by an explicit `now : Nat`
argument threaded into every statement that writes `updated_at`; the `ulid()`
generator is modelled by an explicit id supply `gen : Nat → String`.
`ON DELETE CASCADE` (with `foreign_keys = ON`) is embedded operationally:
deleting a row repeatedly removes rows whose referenced parent row has been
deleted, one level per round.  Statements that auto-commit are distinguished
from statements grouped under `db.transaction` by the `...Commits` functions,
which list the store state visible after each commit point of an operation.
-/

namespace Crumb

inductive Status where
  | todo : Status
  | done : Status
deriving DecidableEq, Repr

/-- One row of the `tasks` table (`id, title, status, parent_id, position,
created_at, updated_at`). -/
structure TaskRow where
  id : String
  title : String
  status : Status
  parentId : Option String
  position : Int
  createdAt : Nat
  updatedAt : Nat
deriving DecidableEq, Repr

/-- The `tasks` table, rows in insertion (rowid) order. -/
abbrev Store := List TaskRow

/-- `SELECT * FROM tasks WHERE id = ?` (`.get`: first matching row). -/
def findRow (s : Store) (i : String) : Option TaskRow :=
  s.find? (fun r => decide (r.id = i))

/-- Rows satisfying `parent_id = ?` for a non-null parameter `p`
(SQL `=` never matches NULL). -/
def childRows (s : Store) (p : String) : Store :=
  s.filter (fun r => decide (r.parentId = some p))

/-- `COUNT(*) FROM tasks WHERE parent_id = ?`. -/
def countChildren (s : Store) (p : String) : Nat :=
  (childRows s p).length

/-- `SUM(CASE WHEN status = 'done' THEN 1 ELSE 0 END) FROM tasks WHERE parent_id = ?`. -/
def countDoneChildren (s : Store) (p : String) : Nat :=
  ((childRows s p).filter (fun r => decide (r.status = Status.done))).length

/-- `COALESCE(MAX(position), -1) + 1 FROM tasks WHERE parent_id IS ?`
(`IS` matches NULL, so the filter compares the full `Option`). -/
def maxPosPlusOne (s : Store) (p : Option String) : Int :=
  (((s.filter (fun r => decide (r.parentId = p))).foldl
      (fun acc r =>
        match acc with
        | none => some r.position
        | some m => some (max m r.position)) none).getD (-1)) + 1

/-- `UPDATE tasks SET status = 'done', updated_at = datetime('now') WHERE id = ?`
applied to one row. -/
def updRow (now : Nat) (r : TaskRow) : TaskRow :=
  { r with status := Status.done, updatedAt := now }

/-- `UPDATE tasks SET status = 'done', updated_at = datetime('now') WHERE id = ?`. -/
def markDone (s : Store) (i : String) (now : Nat) : Store :=
  s.map (fun r => if decide (r.id = i) then updRow now r else r)

/-- `UPDATE tasks SET position = ?, updated_at = datetime('now') WHERE id = ?`. -/
def setPosition (s : Store) (i : String) (pos : Int) (now : Nat) : Store :=
  s.map (fun r => if decide (r.id = i) then { r with position := pos, updatedAt := now } else r)

/-- `updateTask`: conditional `UPDATE ... SET title = ...` then
`UPDATE ... SET status = ...`, each refreshing `updated_at`. -/
def updateTask (s : Store) (i : String) (title? : Option String) (status? : Option Status)
    (now : Nat) : Store :=
  let s1 := match title? with
    | none => s
    | some t => s.map (fun r => if decide (r.id = i) then { r with title := t, updatedAt := now } else r)
  match status? with
  | none => s1
  | some st => s1.map (fun r => if decide (r.id = i) then { r with status := st, updatedAt := now } else r)

/-- `addTask`: inserts `(id, title, parent_id, position)`; `status` takes the
schema default `'todo'`, the timestamps take the default `datetime('now')`.
Returns the new store and the created row. -/
def addTask (s : Store) (newId : String) (title : String) (parentId : Option String)
    (now : Nat) : Store × TaskRow :=
  let row : TaskRow :=
    { id := newId, title := title, status := Status.todo, parentId := parentId,
      position := maxPosPlusOne s parentId, createdAt := now, updatedAt := now }
  (s ++ [row], row)

/-- Is some row with id `p` present (`EXISTS`)? -/
def existsId (s : Store) (p : String) : Bool :=
  s.any (fun r => decide (r.id = p))

/-- One round of `ON DELETE CASCADE`: a row survives when its parent reference
is NULL, still resolves in the current table, or never referenced a row of the
original table (no FK edge existed, so no cascade fires). -/
def keepRow (orig t : Store) (r : TaskRow) : Bool :=
  match r.parentId with
  | none => true
  | some p => existsId t p || !(existsId orig p)

def pruneOnce (orig t : Store) : Store :=
  t.filter (keepRow orig t)

def pruneIter (orig : Store) : Nat → Store → Store
  | 0, t => t
  | n + 1, t => pruneIter orig n (pruneOnce orig (t))

/-- `deleteTask`: `DELETE FROM tasks WHERE id = ?`, with `ON DELETE CASCADE`
removing the orphaned subtree (one level per round; `length` rounds reach any
depth). -/
def deleteTask (s : Store) (i : String) : Store :=
  pruneIter s s.length (s.filter (fun r => !(decide (r.id = i))))

/-- `autoCompleteParent`: look up the row of `childId`; stop when it is absent
or has no parent; otherwise count the parent's direct children and, when there
is at least one and all are done, mark the parent done and recurse upward.
The TypeScript recursion carries no fuel; termination there rests on
acyclicity, so the embedding takes explicit fuel and the theorems show any
fuel past the store size gives the same result. -/
def autoCompleteParent (now : Nat) : Nat → Store → String → Store
  | 0, s, _ => s
  | fuel + 1, s, childId =>
    match findRow s childId with
    | none => s
    | some row =>
      match row.parentId with
      | none => s
      | some parentId =>
        if 0 < countChildren s parentId ∧ countChildren s parentId = countDoneChildren s parentId then
          autoCompleteParent now fuel (markDone s parentId now) parentId
        else s

/-- `completeTask`: set the row done, then propagate upward. -/
def completeTask (s : Store) (i : String) (now : Nat) : Store :=
  autoCompleteParent now (s.length + 1) (markDone s i now) i

/-- `moveTask`: `UPDATE tasks SET parent_id = ?, position = ?, updated_at = ...
WHERE id = ?` with position `max+1` in the target sibling group.  The source
performs no acyclicity or self-parent check. -/
def moveTask (s : Store) (i : String) (newParentId : Option String) (now : Nat) : Store :=
  let pos := maxPosPlusOne s newParentId
  s.map (fun r =>
    if decide (r.id = i) then { r with parentId := newParentId, position := pos, updatedAt := now }
    else r)

/-- Stable insertion by `position` (ties keep earlier rows first), used to
embed `ORDER BY position ASC` over rowid order. -/
def insertByPos (r : TaskRow) : Store → Store
  | [] => [r]
  | x :: xs => if r.position < x.position then r :: x :: xs else x :: insertByPos r xs

def orderByPosition (l : Store) : Store :=
  l.foldr insertByPos []

inductive Direction where
  | up : Direction
  | down : Direction
deriving DecidableEq, Repr

/-- `reorderTask`: find the row, list its siblings ordered by position, locate
it, and swap positions with the adjacent sibling inside one transaction;
returns `false` (store untouched) when the task is missing or already
first/last. -/
def reorderTask (s : Store) (i : String) (dir : Direction) (now : Nat) : Store × Bool :=
  match findRow s i with
  | none => (s, false)
  | some task =>
    let siblings := orderByPosition (s.filter (fun r => decide (r.parentId = task.parentId)))
    match siblings.findIdx? (fun r => decide (r.id = i)) with
    | none => (s, false)
    | some idx =>
      let swapIdx? : Option Nat :=
        match dir with
        | Direction.up => if idx = 0 then none else some (idx - 1)
        | Direction.down => if idx + 1 < siblings.length then some (idx + 1) else none
      match swapIdx? with
      | none => (s, false)
      | some j =>
        match siblings[j]? with
        | none => (s, false)
        | some other =>
          (setPosition (setPosition s task.id other.position now) other.id task.position now, true)

/-- `clearAllTasks`: `DELETE FROM tasks`. -/
def clearAllTasks (_s : Store) : Store := []

/-- In-memory application state: the table plus the module-level `undoStack`
(JS array: index 0 oldest, push appends, shift drops the front, pop takes the
back). -/
structure AppState where
  store : Store
  undoStack : List Store
deriving DecidableEq, Repr

def MAX_UNDO : Nat := 50

/-- `saveSnapshot`: push a full copy of the table, then drop the oldest entry
once the stack exceeds `MAX_UNDO`. -/
def saveSnapshot (st : AppState) : AppState :=
  let stack := st.undoStack ++ [st.store]
  { st with undoStack := if MAX_UNDO < stack.length then stack.tail else stack }

/-- `undo`: empty stack returns `false`; otherwise pop the newest snapshot and,
inside one transaction, delete every row and re-insert the snapshot rows
verbatim. -/
def undo (st : AppState) : AppState × Bool :=
  match st.undoStack.getLast? with
  | none => (st, false)
  | some snap => ({ store := snap, undoStack := st.undoStack.dropLast }, true)

/-- Iterated `undo` calls (result state only). -/
def undoIter : Nat → AppState → AppState
  | 0, st => st
  | k + 1, st => undoIter k (undo st).1

/-- The `TaskOperation` union consumed by `applyOperations`. -/
inductive TaskOperation where
  | add : Option String → String → Option String → TaskOperation
  | delete : String → TaskOperation
  | move : String → Option String → TaskOperation
  | update : String → String → TaskOperation
  | done : String → TaskOperation
deriving DecidableEq, Repr

/-- `idMap.get`: most recent binding wins (bindings are consed in front). -/
def lookupId (m : List (String × String)) (i : String) : Option String :=
  (m.find? (fun kv => decide (kv.1 = i))).map (fun kv => kv.2)

/-- `resolveId`: falsy ids (absent or empty string) become null; otherwise
substitute through the map, unmapped ids pass verbatim. -/
def resolveId (m : List (String × String)) (i : Option String) : Option String :=
  match i with
  | none => none
  | some v => if v = "" then none else some ((lookupId m v).getD v)

structure BatchState where
  store : Store
  idMap : List (String × String)
  nextIdx : Nat

/-- One case of the `switch` inside `applyOperations`.  A task reference that
resolves to null hits `WHERE id = NULL`, which matches no row. -/
def applyOp (gen : Nat → String) (now : Nat) (bs : BatchState) (op : TaskOperation) : BatchState :=
  match op with
  | TaskOperation.add oid title pid =>
    let res := addTask bs.store (gen bs.nextIdx) title (resolveId bs.idMap pid) now
    let m := match oid with
      | some tid => if tid = "" then bs.idMap else (tid, res.2.id) :: bs.idMap
      | none => bs.idMap
    { store := res.1, idMap := m, nextIdx := bs.nextIdx + 1 }
  | TaskOperation.delete tid =>
    match resolveId bs.idMap (some tid) with
    | none => bs
    | some j => { bs with store := deleteTask bs.store j }
  | TaskOperation.move tid newParent =>
    match resolveId bs.idMap (some tid) with
    | none => bs
    | some j => { bs with store := moveTask bs.store j (resolveId bs.idMap newParent) now }
  | TaskOperation.update tid title =>
    match resolveId bs.idMap (some tid) with
    | none => bs
    | some j => { bs with store := updateTask bs.store j (some title) none now }
  | TaskOperation.done tid =>
    match resolveId bs.idMap (some tid) with
    | none => bs
    | some j => { bs with store := completeTask bs.store j now }

/-- `applyOperations`: fold the batch over an initially empty temp-id map,
inside one transaction. -/
def applyOperations (gen : Nat → String) (now : Nat) (s : Store) (ops : List TaskOperation) : Store :=
  (ops.foldl (applyOp gen now) { store := s, idMap := [], nextIdx := 0 }).store

/-! ### Commit traces

`db.transaction` wraps its body in BEGIN/COMMIT; every statement run outside a
transaction auto-commits on its own.  For each multi-row operation the
`...Commits` function lists the store state durable after each commit, in
order.  `reorderTask`, `undo` and `applyOperations` commit exactly once (their
writes sit inside one `db.transaction`); `completeTask` runs its initial
UPDATE and every propagation UPDATE as separate auto-committed statements. -/

def autoCompleteParentCommits (now : Nat) : Nat → Store → String → List Store
  | 0, _, _ => []
  | fuel + 1, s, childId =>
    match findRow s childId with
    | none => []
    | some row =>
      match row.parentId with
      | none => []
      | some parentId =>
        if 0 < countChildren s parentId ∧ countChildren s parentId = countDoneChildren s parentId then
          markDone s parentId now :: autoCompleteParentCommits now fuel (markDone s parentId now) parentId
        else []

def completeTaskCommits (s : Store) (i : String) (now : Nat) : List Store :=
  markDone s i now :: autoCompleteParentCommits now (s.length + 1) (markDone s i now) i

def reorderTaskCommits (s : Store) (i : String) (dir : Direction) (now : Nat) : List Store :=
  if (reorderTask s i dir now).2 then [(reorderTask s i dir now).1] else []

def undoCommits (st : AppState) : List Store :=
  if (undo st).2 then [(undo st).1.store] else []

def applyOperationsCommits (gen : Nat → String) (now : Nat) (s : Store)
    (ops : List TaskOperation) : List Store :=
  [applyOperations gen now s ops]

/-! ### Tree relations -/

/-- `ParentStep s c p`: some row of `s` has id `c` and parent reference `p`. -/
def ParentStep (s : Store) (c p : String) : Prop :=
  ∃ r, r ∈ s ∧ r.id = c ∧ r.parentId = some p

/-- `Descendant s x a`: `x`'s parent chain in `s` reaches `a` in one or more
steps, i.e. `x` is a strict descendant of `a`. -/
def Descendant (s : Store) (x a : String) : Prop :=
  Relation.TransGen (ParentStep s) x a

/-- A ranking function witnessing acyclicity of the parent relation: every
parent ranks strictly below its child, and ranks are bounded by the store
size (any truly acyclic store of `n` rows admits depth ranks below `n`). -/
def RankedBy (s : Store) (d : String → Nat) : Prop :=
  ∀ x y, ParentStep s x y → d y < d x

def AcyclicRank (s : Store) : Prop :=
  ∃ d : String → Nat, RankedBy s d ∧ ∀ x, d x ≤ s.length

/-- Referential integrity (`foreign_keys = ON`): every non-null parent
reference resolves to a row. -/
def RefIntact (s : Store) : Prop :=
  ∀ r ∈ s, ∀ p, r.parentId = some p → ∃ q, q ∈ s ∧ q.id = p

/-- Status of the row with id `i`, if any. -/
def statusOf (s : Store) (i : String) : Option Status :=
  (findRow s i).map (fun r => r.status)

/-- The strict ancestor chain of `c`: parent, grandparent, …, cut off by fuel
or at a root / missing row (mirrors the walk of `autoCompleteParent`). -/
def ancChain (s : Store) : Nat → String → List String
  | 0, _ => []
  | fuel + 1, c =>
    match findRow s c with
    | none => []
    | some row =>
      match row.parentId with
      | none => []
      | some p => p :: ancChain s fuel p

/-- The parent qualifies for auto-completion: at least one direct child and
all direct children done. -/
def Qual (s : Store) (p : String) : Prop :=
  0 < countChildren s p ∧ countChildren s p = countDoneChildren s p

/-- Row relation along `completeTask s i now`: every row is untouched or is
overwritten by the done-marking update, and a row other than `i`'s is touched
only when it is a strict ancestor of `i`. -/
def CompleteRel (s : Store) (i : String) (now : Nat) (a b : TaskRow) : Prop :=
  b = a ∨ (b = updRow now a ∧ (a.id = i ∨ Descendant s i a.id))

/-- Full specification of `completeTask s i now` (conclusion of claim C3):
(1) row `i` ends done; (2) rows change only by done-marking, and only at `i`
or strict ancestors of `i`; (3) any changed row other than `i`'s qualifies in
the final state (≥ 1 child, all children done) and its change is a
done-marking of a strict ancestor; (4) along the ancestor chain, every prefix
that fully qualifies in the final state is marked done (the walk does not stop
early); (5) the walk is fuel-independent past the store size (termination). -/
def CompleteTaskSpec (s : Store) (i : String) (now : Nat) : Prop :=
  (statusOf (completeTask s i now) i = some Status.done) ∧
  List.Forall₂ (CompleteRel s i now) s (completeTask s i now) ∧
  (∀ p, statusOf (completeTask s i now) p ≠ statusOf s p → p ≠ i →
    Descendant s i p ∧ Qual (completeTask s i now) p ∧
      statusOf (completeTask s i now) p = some Status.done) ∧
  (∀ k, (∀ p ∈ (ancChain s (s.length + 1) i).take k, Qual (completeTask s i now) p) →
    ∀ p ∈ (ancChain s (s.length + 1) i).take k,
      statusOf (completeTask s i now) p = some Status.done) ∧
  (∀ fuel, s.length + 1 ≤ fuel →
    autoCompleteParent now fuel (markDone s i now) i = completeTask s i now)

/-- Full specification of `deleteTask s T` for a present id `T` (conclusion of
claim C4): no surviving row has id `T`; every row whose parent chain reaches
`T` is gone; every other row survives; and survivors are original rows in
original order, every field untouched. -/
def DeleteCascadeSpec (s : Store) (T : String) : Prop :=
  (∀ r ∈ deleteTask s T, r.id ≠ T) ∧
  (∀ r ∈ s, Descendant s r.id T → r ∉ deleteTask s T) ∧
  (∀ r ∈ s, r.id ≠ T → ¬ Descendant s r.id T → r ∈ deleteTask s T) ∧
  (deleteTask s T).Sublist s

/-! ### Concrete stores used in witnesses and counterexamples -/

def rowR : TaskRow :=
  { id := "r", title := "R", status := Status.todo, parentId := none,
    position := 0, createdAt := 0, updatedAt := 0 }

def rowC : TaskRow :=
  { id := "c", title := "C", status := Status.todo, parentId := some "r",
    position := 0, createdAt := 0, updatedAt := 0 }

/-- A root `"r"` with a single child `"c"`, both todo. -/
def exPair : Store := [rowR, rowC]

/-- Depth ranking for `exPair`. -/
def dPair : String → Nat := fun x => if x = "c" then 1 else 0

def rowG : TaskRow :=
  { id := "g", title := "G", status := Status.todo, parentId := none,
    position := 0, createdAt := 0, updatedAt := 0 }

def rowM : TaskRow :=
  { id := "m", title := "M", status := Status.todo, parentId := some "g",
    position := 0, createdAt := 0, updatedAt := 0 }

def rowL : TaskRow :=
  { id := "l", title := "L", status := Status.todo, parentId := some "m",
    position := 0, createdAt := 0, updatedAt := 0 }

/-- A three-node chain `"g" → "m" → "l"`. -/
def exChain : Store := [rowG, rowM, rowL]

/-- Depth ranking for `exChain`. -/
def dChain : String → Nat := fun x => if x = "l" then 2 else if x = "m" then 1 else 0

def rowP : TaskRow :=
  { id := "p", title := "P", status := Status.todo, parentId := none,
    position := 0, createdAt := 0, updatedAt := 0 }

def rowC1 : TaskRow :=
  { id := "c1", title := "C1", status := Status.done, parentId := some "p",
    position := 0, createdAt := 0, updatedAt := 0 }

def rowC2 : TaskRow :=
  { id := "c2", title := "C2", status := Status.todo, parentId := some "p",
    position := 1, createdAt := 0, updatedAt := 0 }

/-- A todo parent `"p"` with a done child `"c1"` and a todo child `"c2"`. -/
def exFam : Store := [rowP, rowC1, rowC2]

/-- Application state whose undo stack is exactly full (50 snapshots), the
oldest distinct from every other stack entry and from the live store. -/
def exFull : AppState :=
  { store := [rowL], undoStack := [rowG] :: List.replicate 49 [rowM] }

end Crumb

namespace Crumb

/-! ### Generic helper lemmas -/

theorem findRow_id {s : Store} {i : String} {r : TaskRow} (h : findRow s i = some r) :
    r.id = i := by
  unfold findRow at h
  simpa using List.find?_some h

theorem findRow_mem {s : Store} {i : String} {r : TaskRow} (h : findRow s i = some r) :
    r ∈ s := by
  unfold findRow at h
  exact List.mem_of_find?_eq_some h

theorem findRow_isSome_of_mem {s : Store} {q : TaskRow} (hq : q ∈ s) {p : String}
    (hid : q.id = p) : ∃ r, findRow s p = some r := by
  cases hf : findRow s p with
  | some r => exact ⟨r, rfl⟩
  | none =>
    unfold findRow at hf
    have := (List.find?_eq_none.1 hf) q hq
    simp [hid] at this

theorem findRow_map (s : Store) (i : String) (f : TaskRow → TaskRow)
    (hf : ∀ r, (f r).id = r.id) :
    findRow (s.map f) i = (findRow s i).map f := by
  unfold findRow
  rw [List.find?_map]
  congr 2
  funext r
  simp [Function.comp, hf]

theorem parentStep_map (s : Store) (f : TaskRow → TaskRow)
    (hid : ∀ r, (f r).id = r.id) (hpar : ∀ r, (f r).parentId = r.parentId) (x y : String) :
    ParentStep (s.map f) x y ↔ ParentStep s x y := by
  unfold ParentStep
  constructor
  · rintro ⟨r, hr, h1, h2⟩
    rcases List.mem_map.1 hr with ⟨a, ha, rfl⟩
    exact ⟨a, ha, by rw [← hid a]; exact h1, by rw [← hpar a]; exact h2⟩
  · rintro ⟨a, ha, h1, h2⟩
    exact ⟨f a, List.mem_map_of_mem f ha, by rw [hid]; exact h1, by rw [hpar]; exact h2⟩

theorem refIntact_map (s : Store) (f : TaskRow → TaskRow)
    (hid : ∀ r, (f r).id = r.id) (hpar : ∀ r, (f r).parentId = r.parentId)
    (h : RefIntact s) : RefIntact (s.map f) := by
  intro r hr p hp
  rcases List.mem_map.1 hr with ⟨a, ha, rfl⟩
  rw [hpar] at hp
  rcases h a ha p hp with ⟨q, hq, hqid⟩
  exact ⟨f q, List.mem_map_of_mem f hq, by rw [hid]; exact hqid⟩

theorem rank_transGen {s : Store} {d : String → Nat} (hd : RankedBy s d) {x y : String}
    (h : Relation.TransGen (ParentStep s) x y) : d y < d x := by
  induction h with
  | single h1 => exact hd _ _ h1
  | tail _ h1 ih => exact lt_trans (hd _ _ h1) ih

theorem forall₂_trans_rel {R S T : TaskRow → TaskRow → Prop}
    (h : ∀ a m b, R a m → S m b → T a b) :
    ∀ {s t u : Store}, List.Forall₂ R s t → List.Forall₂ S t u → List.Forall₂ T s u := by
  intro s t u h1
  induction h1 generalizing u with
  | nil =>
    intro h2
    cases h2
    exact List.Forall₂.nil
  | cons hab _ ih =>
    intro h2
    cases h2 with
    | cons hmb h2 => exact List.Forall₂.cons (h _ _ _ hab hmb) (ih h2)

theorem findRow_forall₂ {R : TaskRow → TaskRow → Prop}
    (hid : ∀ a b, R a b → b.id = a.id) :
    ∀ {s t : Store}, List.Forall₂ R s t → ∀ p,
      (findRow s p = none ∧ findRow t p = none) ∨
      ∃ a b, a ∈ s ∧ R a b ∧ findRow s p = some a ∧ findRow t p = some b := by
  intro s t h
  induction h with
  | nil =>
    intro p
    left
    simp [findRow]
  | @cons a b l₁ l₂ hab htail ih =>
    intro p
    by_cases hp : a.id = p
    · right
      refine ⟨a, b, List.mem_cons_self a l₁, hab, ?_, ?_⟩
      · unfold findRow
        exact List.find?_cons_of_pos _ (by simp [hp])
      · unfold findRow
        exact List.find?_cons_of_pos _ (by simp [hid a b hab, hp])
    · have e1 : findRow (a :: l₁) p = findRow l₁ p := by
        unfold findRow
        exact List.find?_cons_of_neg _ (by simp [hp])
      have e2 : findRow (b :: l₂) p = findRow l₂ p := by
        unfold findRow
        exact List.find?_cons_of_neg _ (by simp [hid a b hab, hp])
      rw [e1, e2]
      rcases ih p with h0 | ⟨a', b', ha', hr', f1, f2⟩
      · left
        exact h0
      · right
        exact ⟨a', b', List.mem_cons_of_mem a ha', hr', f1, f2⟩

theorem statusOf_done_of_forall₂ {R : TaskRow → TaskRow → Prop}
    (hid : ∀ a b, R a b → b.id = a.id)
    (hdone : ∀ a b, R a b → a.status = Status.done → b.status = Status.done)
    {s t : Store} (h : List.Forall₂ R s t) (p : String)
    (hp : statusOf s p = some Status.done) : statusOf t p = some Status.done := by
  rcases findRow_forall₂ hid h p with ⟨h1, h2⟩ | ⟨a, b, _, hr, f1, f2⟩
  · rw [statusOf, h1] at hp
    simp at hp
  · rw [statusOf, f1] at hp
    simp at hp
    rw [statusOf, f2]
    simp [hdone a b hr hp]

theorem counts_eq_of_forall₂ {p : String} {R : TaskRow → TaskRow → Prop} :
    ∀ {s t : Store}, List.Forall₂ R s t →
    (∀ a b, a ∈ s → R a b → b.parentId = a.parentId) →
    (∀ a b, a ∈ s → R a b → a.parentId = some p → b.status = a.status) →
    countChildren t p = countChildren s p ∧ countDoneChildren t p = countDoneChildren s p := by
  intro s t h
  induction h with
  | nil =>
    intro _ _
    exact ⟨rfl, rfl⟩
  | @cons a b l₁ l₂ hab htail ih =>
    intro hpar hst
    have hparab : b.parentId = a.parentId := hpar a b (List.mem_cons_self a l₁) hab
    have ihm := ih (fun a' b' ha' h' => hpar a' b' (List.mem_cons_of_mem a ha') h')
      (fun a' b' ha' h' hp' => hst a' b' (List.mem_cons_of_mem a ha') h' hp')
    obtain ⟨ih1, ih2⟩ := ihm
    simp only [countChildren, countDoneChildren, childRows] at ih1 ih2 ⊢
    by_cases hp : a.parentId = some p
    · have hstab : b.status = a.status := hst a b (List.mem_cons_self a l₁) hab hp
      have e1 : List.filter (fun r => decide (r.parentId = some p)) (a :: l₁) =
          a :: List.filter (fun r => decide (r.parentId = some p)) l₁ := by
        rw [List.filter_cons, if_pos (by simp [hp])]
      have e2 : List.filter (fun r => decide (r.parentId = some p)) (b :: l₂) =
          b :: List.filter (fun r => decide (r.parentId = some p)) l₂ := by
        rw [List.filter_cons, if_pos (by simp [hparab, hp])]
      rw [e1, e2]
      refine ⟨by rw [List.length_cons, List.length_cons, ih1], ?_⟩
      rw [List.filter_cons, List.filter_cons]
      by_cases hd : a.status = Status.done
      · rw [if_pos (by simp only [decide_eq_true_eq]; exact hstab.trans hd),
          if_pos (by simp only [decide_eq_true_eq]; exact hd)]
        rw [List.length_cons, List.length_cons, ih2]
      · rw [if_neg (by simp only [decide_eq_true_eq, hstab]; exact hd),
          if_neg (by simp only [decide_eq_true_eq]; exact hd)]
        exact ih2
    · have e1 : List.filter (fun r => decide (r.parentId = some p)) (a :: l₁) =
          List.filter (fun r => decide (r.parentId = some p)) l₁ := by
        rw [List.filter_cons, if_neg (by simp [hp])]
      have e2 : List.filter (fun r => decide (r.parentId = some p)) (b :: l₂) =
          List.filter (fun r => decide (r.parentId = some p)) l₂ := by
        rw [List.filter_cons, if_neg (by simp [hparab, hp])]
      rw [e1, e2]
      exact ⟨ih1, ih2⟩

/-! ### Lemmas about `markDone` -/

theorem markDone_id (now : Nat) (r : TaskRow) (j : String) :
    (if decide (r.id = j) then updRow now r else r).id = r.id := by
  by_cases h : r.id = j <;> simp [h, updRow]

theorem markDone_parent (now : Nat) (r : TaskRow) (j : String) :
    (if decide (r.id = j) then updRow now r else r).parentId = r.parentId := by
  by_cases h : r.id = j <;> simp [h, updRow]

theorem findRow_markDone (s : Store) (i j : String) (now : Nat) :
    findRow (markDone s j now) i =
      (findRow s i).map (fun r => if decide (r.id = j) then updRow now r else r) := by
  unfold markDone
  exact findRow_map s i _ (fun r => markDone_id now r j)

theorem statusOf_markDone_ne (s : Store) {i j : String} (now : Nat) (h : i ≠ j) :
    statusOf (markDone s j now) i = statusOf s i := by
  unfold statusOf
  rw [findRow_markDone]
  cases hf : findRow s i with
  | none => rfl
  | some r =>
    have : r.id = i := findRow_id hf
    simp [this, h]

theorem statusOf_markDone_self (s : Store) (j : String) (now : Nat) :
    statusOf (markDone s j now) j = (statusOf s j).map (fun _ => Status.done) := by
  unfold statusOf
  rw [findRow_markDone]
  cases hf : findRow s j with
  | none => rfl
  | some r =>
    have : r.id = j := findRow_id hf
    simp [this, updRow]

theorem parentStep_markDone (s : Store) (j : String) (now : Nat) (x y : String) :
    ParentStep (markDone s j now) x y ↔ ParentStep s x y := by
  unfold markDone
  exact parentStep_map s _ (fun r => markDone_id now r j) (fun r => markDone_parent now r j) x y

theorem refIntact_markDone (s : Store) (j : String) (now : Nat) (h : RefIntact s) :
    RefIntact (markDone s j now) := by
  unfold markDone
  exact refIntact_map s _ (fun r => markDone_id now r j) (fun r => markDone_parent now r j) h

theorem rankedBy_markDone (s : Store) (j : String) (now : Nat) {d : String → Nat}
    (h : RankedBy s d) : RankedBy (markDone s j now) d := by
  intro x y hxy
  exact h x y ((parentStep_markDone s j now x y).1 hxy)

theorem markDone_forall₂ (s : Store) (j : String) (now : Nat) :
    List.Forall₂ (fun a b => (b = a ∧ a.id ≠ j) ∨ (b = updRow now a ∧ a.id = j))
      s (markDone s j now) := by
  unfold markDone
  rw [List.forall₂_map_right_iff, List.forall₂_same]
  intro a _
  by_cases h : a.id = j <;> simp [h]

theorem ancChain_markDone (s : Store) (j : String) (now : Nat) :
    ∀ (fuel : Nat) (c : String), ancChain (markDone s j now) fuel c = ancChain s fuel c := by
  intro fuel
  induction fuel with
  | zero => intro c; rfl
  | succ n ih =>
    intro c
    simp only [ancChain]
    rw [findRow_markDone]
    cases hf : findRow s c with
    | none => rfl
    | some r =>
      cases hp : r.parentId <;> by_cases hid : r.id = j <;> simp [hid, hp, updRow, ih]

theorem markDone_length (s : Store) (j : String) (now : Nat) :
    (markDone s j now).length = s.length := by
  unfold markDone
  exact List.length_map s _

theorem markDone_of_findRow_none (s : Store) (i : String) (now : Nat)
    (h : findRow s i = none) : markDone s i now = s := by
  unfold findRow at h
  have hall := List.find?_eq_none.1 h
  unfold markDone
  have : ∀ r ∈ s, (if decide (r.id = i) then updRow now r else r) = r := by
    intro r hr
    have := hall r hr
    simp at this
    simp [this]
  rw [List.map_congr_left this]
  simp

/-! ### Lemmas about cascade pruning -/

theorem pruneIter_sublist (orig : Store) : ∀ (n : Nat) (t : Store),
    (pruneIter orig n t).Sublist t := by
  intro n
  induction n with
  | zero => intro t; exact List.Sublist.refl t
  | succ m ih =>
    intro t
    exact (ih (pruneOnce orig t)).trans (List.filter_sublist t)

theorem pruneIter_succ_comm (orig : Store) : ∀ (n : Nat) (t : Store),
    pruneIter orig (n + 1) t = pruneOnce orig (pruneIter orig n t) := by
  intro n
  induction n with
  | zero => intro t; rfl
  | succ m ih =>
    intro t
    show pruneIter orig (m + 1) (pruneOnce orig t) = _
    rw [ih (pruneOnce orig t)]
    rfl

/-! ### Claim C9: created tasks are born todo -/

/-- C9.  For every title and parent, `addTask` returns a task with status
`todo` and appends exactly that row to the store; the batch `add` operation
goes through `addTask` and therefore also appends a row whose status is
`todo`.  A newly created task is never born done. -/
theorem addTask_born_todo (s : Store) (newId title : String) (p : Option String) (now : Nat)
    (gen : Nat → String) (bs : BatchState) (oid : Option String) :
    (addTask s newId title p now).2.status = Status.todo ∧
    (addTask s newId title p now).1 = s ++ [(addTask s newId title p now).2] ∧
    ((applyOp gen now bs (TaskOperation.add oid title p)).store.getLast?).map
        (fun r => r.status) = some Status.todo := by
  refine ⟨rfl, rfl, ?_⟩
  show ((addTask bs.store (gen bs.nextIdx) title (resolveId bs.idMap p) now).1.getLast?).map
    (fun r => r.status) = some Status.todo
  unfold addTask
  rw [List.getLast?_concat]
  rfl

/-! ### Claim C10: completing a missing id is a no-op -/

/-- C10.  When `id` matches no record, the direct `UPDATE` of `completeTask`
touches zero rows and the propagation walk, finding no row for the missing
id, stops immediately: the store is returned exactly unchanged. -/
theorem completeTask_missing_noop (s : Store) (i : String) (now : Nat)
    (h : findRow s i = none) : completeTask s i now = s := by
  have hmark : markDone s i now = s := markDone_of_findRow_none s i now h
  unfold completeTask
  rw [hmark]
  simp only [autoCompleteParent]
  rw [h]

/-- Witness for C10 at a concrete store. -/
theorem completeTask_missing_noop_witness : completeTask exPair "zz" 7 = exPair :=
  completeTask_missing_noop exPair "zz" 7 (by decide)

/-! ### Claim C5: deleteTask never edits surviving rows -/

/-- C5.  The surviving rows of any `deleteTask` call are original rows in
their original order with every field (in particular `status`) untouched;
concretely, deleting the still-todo child `"c2"` of the parent `"p"` whose
remaining children are then all done does not mark `"p"` done — propagation
is triggered only by `completeTask`, never by `deleteTask`. -/
theorem deleteTask_no_field_change :
    (∀ (s : Store) (i : String), (deleteTask s i).Sublist s) ∧
    statusOf (deleteTask exFam "c2") "p" = some Status.todo ∧
    statusOf (deleteTask exFam "c2") "c1" = some Status.done := by
    refine ⟨fun s i => ?_, by decide, by decide⟩
    unfold deleteTask
    exact (pruneIter_sublist s s.length _).trans (List.filter_sublist s)

/-! ### Claim C6: snapshot / undo round-trip -/

/-- C6.  For any mutation `M` of the store (this covers create, rename, set
status, complete, delete, move, reorder, indent, outdent, clear and batches,
none of which touch the undo stack), running `saveSnapshot`, then `M`, then
`undo` returns `true` and restores exactly the pre-`M` record list — ids,
titles, statuses, parents, positions and timestamps; `undo` on an empty
stack returns `false` and leaves everything unchanged. -/
theorem snapshot_undo_roundtrip :
    (∀ (st : AppState) (M : Store → Store),
      (undo { saveSnapshot st with store := M (saveSnapshot st).store }).2 = true ∧
      (undo { saveSnapshot st with store := M (saveSnapshot st).store }).1.store = st.store) ∧
    (∀ st : AppState, st.undoStack = [] → (undo st).2 = false ∧ (undo st).1 = st) := by
  constructor
  · intro st M
    have hstack : (saveSnapshot st).undoStack.getLast? = some st.store := by
      show (if MAX_UNDO < (st.undoStack ++ [st.store]).length
          then (st.undoStack ++ [st.store]).tail
          else st.undoStack ++ [st.store]).getLast? = some st.store
      by_cases h : MAX_UNDO < (st.undoStack ++ [st.store]).length
      · rw [if_pos h]
        have hne : st.undoStack ≠ [] := by
          intro h0
          rw [h0] at h
          simp [MAX_UNDO] at h
        rw [List.tail_append_of_ne_nil hne, List.getLast?_concat]
      · rw [if_neg h]
        exact List.getLast?_concat _
    have hstack2 : ({ saveSnapshot st with
        store := M (saveSnapshot st).store } : AppState).undoStack.getLast? = some st.store :=
      hstack
    unfold undo
    rw [hstack2]
    exact ⟨rfl, rfl⟩
  · intro st h
    unfold undo
    rw [h]
    exact ⟨rfl, rfl⟩

/-- Witness for C6: concrete round-trip through a deletion, and `undo` on an
empty stack. -/
theorem snapshot_undo_roundtrip_witness :
    ((undo { saveSnapshot { store := exPair, undoStack := [] } with
        store := deleteTask exPair "r" }).2 = true ∧
      (undo { saveSnapshot { store := exPair, undoStack := [] } with
        store := deleteTask exPair "r" }).1.store = exPair) ∧
    (undo { store := exPair, undoStack := [] }).2 = false ∧
    (undo { store := exPair, undoStack := [] }).1 = { store := exPair, undoStack := [] } :=
  ⟨snapshot_undo_roundtrip.1 { store := exPair, undoStack := [] } (fun s => deleteTask s "r"),
    snapshot_undo_roundtrip.2 { store := exPair, undoStack := [] } rfl⟩

/-! ### Claim C7: batch temp-id resolution -/

/-- C7.  Applying `[{op:add, id:"temp_1", title:"A"}, {op:add, title:"B",
parentId:"temp_1"}]` to any store appends exactly two rows: `A` with the
first generated real id, and `B` whose `parentId` is that same real id — the
temp id supplied by the first add is recorded in the temp-id map and the
second add's `parentId` is substituted through it. -/
theorem applyOperations_temp_id_resolution (s : Store) (gen : Nat → String) (now : Nat) :
    applyOperations gen now s
        [TaskOperation.add (some "temp_1") "A" none,
         TaskOperation.add none "B" (some "temp_1")] =
      (s ++ [{ id := gen 0, title := "A", status := Status.todo, parentId := none,
               position := maxPosPlusOne s none, createdAt := now, updatedAt := now }]) ++
        [{ id := gen 1, title := "B", status := Status.todo, parentId := some (gen 0),
           position := maxPosPlusOne
             (s ++ [{ id := gen 0, title := "A", status := Status.todo, parentId := none,
                      position := maxPosPlusOne s none, createdAt := now, updatedAt := now }])
             (some (gen 0)),
           createdAt := now, updatedAt := now }] := rfl

/-! ### Claim C2: moveTask and acyclicity -/

/-- C2 counterexample.  `exPair` is acyclic and `"c"` is a descendant of
`"r"`, yet `moveTask exPair "r" (some "c")` changes the store and the result
is no longer acyclic (it contains the two-cycle `"r" ⇄ "c"`): the source
performs no self/descendant check before reparenting. -/
theorem moveTask_descendant_counterexample :
    AcyclicRank exPair ∧
    Descendant exPair "c" "r" ∧
    moveTask exPair "r" (some "c") 9 ≠ exPair ∧
    ¬ AcyclicRank (moveTask exPair "r" (some "c") 9) := by
  refine ⟨⟨dPair, ?_, ?_⟩, ?_, by decide, ?_⟩
  · rintro x y ⟨r, hr, hid, hp⟩
    have hr2 : r = rowR ∨ r = rowC := by simpa [exPair] using hr
    rcases hr2 with rfl | rfl
    · simp [rowR] at hp
    · have hx : x = "c" := by simpa [rowC] using hid.symm
      have hy : y = "r" := by
        have := hp
        simp [rowC] at this
        exact this.symm
      subst hx
      subst hy
      simp [dPair]
  · intro x
    by_cases h : x = "c" <;> simp [dPair, h, exPair]
  · exact Relation.TransGen.single ⟨rowC, by decide, rfl, rfl⟩
  · rintro ⟨d, hd, -⟩
    have h1 : d "c" < d "r" := hd "r" "c"
      ⟨{ id := "r", title := "R", status := Status.todo, parentId := some "c",
         position := 0, createdAt := 0, updatedAt := 9 }, by decide, rfl, rfl⟩
    have h2 : d "r" < d "c" := hd "c" "r"
      ⟨{ id := "c", title := "C", status := Status.todo, parentId := some "r",
         position := 0, createdAt := 0, updatedAt := 0 }, by decide, rfl, rfl⟩
    omega

/-- C2 amended.  `moveTask` performs no acyclicity check at all: whenever the
target row exists it is unconditionally reparented to `newParentId` (position
`max+1` of the new sibling group, `updated_at` refreshed), even when the new
parent is the task itself or one of its descendants, in which case the parent
relation acquires a cycle; acyclicity is preserved only by callers avoiding
such moves. -/
theorem moveTask_reparents_unconditionally (s : Store) (i : String) (p : Option String)
    (now : Nat) (r : TaskRow) (h : findRow s i = some r) :
    findRow (moveTask s i p now) i =
      some { r with parentId := p, position := maxPosPlusOne s p, updatedAt := now } := by
  show findRow (s.map (fun a =>
      if decide (a.id = i)
      then { a with parentId := p, position := maxPosPlusOne s p, updatedAt := now }
      else a)) i = _
  rw [findRow_map s i _ (fun a => by by_cases ha : a.id = i <;> simp [ha])]
  rw [h]
  simp [findRow_id h]

/-- Witness for the amended C2 at a concrete input. -/
theorem moveTask_reparents_unconditionally_witness :
    findRow (moveTask exPair "c" none 4) "c" =
      some { rowC with parentId := none, position := maxPosPlusOne exPair none, updatedAt := 4 } :=
  moveTask_reparents_unconditionally exPair "c" none 4 rowC (by decide)

/-! ### Claim C8: the undo stack is bounded by 50 -/

theorem saveSnapshot_stack (st : AppState) :
    (saveSnapshot st).undoStack =
      if MAX_UNDO < (st.undoStack ++ [st.store]).length
      then (st.undoStack ++ [st.store]).tail
      else st.undoStack ++ [st.store] := rfl

theorem saveSnapshot_full (st : AppState) (h : st.undoStack.length = MAX_UNDO) :
    (saveSnapshot st).undoStack = st.undoStack.tail ++ [st.store] := by
  rw [saveSnapshot_stack]
  have hlen : (st.undoStack ++ [st.store]).length = MAX_UNDO + 1 := by simp [h]
  rw [if_pos (by rw [hlen]; omega)]
  have hne : st.undoStack ≠ [] := by
    intro h0
    rw [h0] at h
    simp [MAX_UNDO] at h
  rw [List.tail_append_of_ne_nil hne]

/-- Every state reachable by repeated `undo` carries as its store either the
starting store or some entry of the starting undo stack, and its stack is a
sublist of the starting stack. -/
theorem undoIter_reach : ∀ (k : Nat) (st : AppState),
    ((undoIter k st).store = st.store ∨ (undoIter k st).store ∈ st.undoStack) ∧
    (undoIter k st).undoStack.Sublist st.undoStack := by
  intro k
  induction k with
  | zero => intro st; exact ⟨Or.inl rfl, List.Sublist.refl _⟩
  | succ m ih =>
    intro st
    have hstep : undoIter (m + 1) st = undoIter m (undo st).1 := rfl
    rw [hstep]
    cases hg : st.undoStack.getLast? with
    | none =>
      have hu : (undo st).1 = st := by
        unfold undo
        rw [hg]
      rw [hu]
      exact ih st
    | some snap =>
      have hu : (undo st).1 = { store := snap, undoStack := st.undoStack.dropLast } := by
        unfold undo
        rw [hg]
      rw [hu]
      obtain ⟨h1, h2⟩ := ih { store := snap, undoStack := st.undoStack.dropLast }
      have hsnapmem : snap ∈ st.undoStack := by
        rcases List.getLast?_eq_some_iff.1 hg with ⟨ys, hys⟩
        rw [hys]
        simp
      constructor
      · rcases h1 with h1 | h1
        · right
          rw [h1]
          exact hsnapmem
        · right
          exact (List.dropLast_sublist _).subset h1
      · exact h2.trans (List.dropLast_sublist _)

/-- C8.  `saveSnapshot` keeps the stack within `MAX_UNDO = 50` entries; a
call on a full stack drops exactly the oldest snapshot and appends the
current store; and once evicted, a snapshot distinct from every remaining
entry and from the live store can never be produced again by any number of
subsequent `undo` calls. -/
theorem undo_stack_bounded :
    (∀ st : AppState, st.undoStack.length ≤ MAX_UNDO →
      (saveSnapshot st).undoStack.length ≤ MAX_UNDO) ∧
    (∀ st : AppState, st.undoStack.length = MAX_UNDO →
      (saveSnapshot st).undoStack = st.undoStack.tail ++ [st.store]) ∧
    (∀ (st : AppState) (h₀ : Store) (rest : List Store),
      st.undoStack = h₀ :: rest → st.undoStack.length = MAX_UNDO →
      h₀ ∉ rest → h₀ ≠ st.store →
      ∀ k, (undoIter k (saveSnapshot st)).store ≠ h₀) := by
  refine ⟨?_, fun st h => saveSnapshot_full st h, ?_⟩
  · intro st h
    rw [saveSnapshot_stack]
    by_cases hc : MAX_UNDO < (st.undoStack ++ [st.store]).length
    · rw [if_pos hc]
      simp only [List.length_tail, List.length_append, List.length_singleton]
      omega
    · rw [if_neg hc]
      exact Nat.le_of_not_lt hc
  · intro st h₀ rest hstack hlen hnotin hne k
    have hsnap : (saveSnapshot st).undoStack = rest ++ [st.store] := by
      rw [saveSnapshot_full st hlen, hstack]
      rfl
    have hstore : (saveSnapshot st).store = st.store := rfl
    obtain ⟨h1, -⟩ := undoIter_reach k (saveSnapshot st)
    intro hc
    rcases h1 with h1 | h1
    · exact hne (by rw [← hc, h1, hstore])
    · rw [hsnap, hc] at h1
      rcases List.mem_append.1 h1 with hm | hm
      · exact hnotin hm
      · have : h₀ = st.store := by simpa using hm
        exact hne this

/-- Witness for C8 on a concretely full stack of 50 snapshots. -/
theorem undo_stack_bounded_witness :
    (saveSnapshot exFull).undoStack.length ≤ MAX_UNDO ∧
    (saveSnapshot exFull).undoStack = exFull.undoStack.tail ++ [exFull.store] ∧
    (undoIter 3 (saveSnapshot exFull)).store ≠ [rowG] :=
  ⟨undo_stack_bounded.1 exFull (by decide),
   undo_stack_bounded.2.1 exFull (by decide),
   undo_stack_bounded.2.2 exFull [rowG] (List.replicate 49 [rowM]) rfl (by decide)
     (by decide) (by decide) 3⟩

/-! ### Claim C1: transaction granularity of multi-row operations -/

/-- C1 counterexample.  On the two-row store `exPair`, `completeTask "c"`
commits an intermediate state — child done, parent not yet propagated — that
differs from both the starting store and the final store: the complete
operation's writes are separate auto-committed statements, not one
transaction. -/
theorem completeTask_partial_commit_counterexample :
    completeTaskCommits exPair "c" 7 =
      [[rowR, updRow 7 rowC], [updRow 7 rowR, updRow 7 rowC]] ∧
    [rowR, updRow 7 rowC] ≠ exPair ∧
    [rowR, updRow 7 rowC] ≠ completeTask exPair "c" 7 := by decide

theorem acp_commits_last (now : Nat) : ∀ (fuel : Nat) (s : Store) (c : String),
    (s :: autoCompleteParentCommits now fuel s c).getLast? =
      some (autoCompleteParent now fuel s c) := by
  intro fuel
  induction fuel with
  | zero => intro s c; rfl
  | succ m ih =>
    intro s c
    simp only [autoCompleteParentCommits, autoCompleteParent]
    cases hf : findRow s c with
    | none => rfl
    | some row =>
      dsimp only
      cases hp : row.parentId with
      | none => rfl
      | some pid =>
        dsimp only
        by_cases hq : 0 < countChildren s pid ∧ countChildren s pid = countDoneChildren s pid
        · rw [if_pos hq, if_pos hq, List.getLast?_cons_cons]
          exact ih (markDone s pid now) pid
        · rw [if_neg hq, if_neg hq]
          rfl

/-- C1 amended.  The reorder swap, undo restore and batch apply perform all
their row writes inside one `db.transaction`, so their only commit is the
final state (nothing partial is ever durable); `completeTask`, however, is
not transactional — it auto-commits each UPDATE, its last commit being the
final state while intermediate commits may differ from both endpoints (see
the counterexample). -/
theorem multi_row_ops_commit_granularity :
    (∀ (s : Store) (i : String) (dir : Direction) (now : Nat),
      ∀ t ∈ reorderTaskCommits s i dir now, t = (reorderTask s i dir now).1) ∧
    (∀ st : AppState, ∀ t ∈ undoCommits st, t = (undo st).1.store) ∧
    (∀ (gen : Nat → String) (now : Nat) (s : Store) (ops : List TaskOperation),
      ∀ t ∈ applyOperationsCommits gen now s ops, t = applyOperations gen now s ops) ∧
    (∀ (s : Store) (i : String) (now : Nat),
      (completeTaskCommits s i now).getLast? = some (completeTask s i now)) := by
  refine ⟨?_, ?_, ?_, ?_⟩
  · intro s i dir now t ht
    unfold reorderTaskCommits at ht
    by_cases hb : (reorderTask s i dir now).2
    · rw [if_pos hb] at ht
      simpa using ht
    · rw [if_neg hb] at ht
      simp at ht
  · intro st t ht
    unfold undoCommits at ht
    by_cases hb : (undo st).2
    · rw [if_pos hb] at ht
      simpa using ht
    · rw [if_neg hb] at ht
      simp at ht
  · intro gen now s ops t ht
    simpa [applyOperationsCommits] using ht
  · intro s i now
    exact acp_commits_last now (s.length + 1) (markDone s i now) i

/-- Witness for the amended C1: a concrete undo restore commits exactly its
final state, and a concrete completeTask's last commit is its final state. -/
theorem multi_row_ops_commit_granularity_witness :
    [rowR] = (undo { store := exPair, undoStack := [[rowR]] }).1.store ∧
    (completeTaskCommits exFam "c2" 4).getLast? = some (completeTask exFam "c2" 4) :=
  ⟨multi_row_ops_commit_granularity.2.1 { store := exPair, undoStack := [[rowR]] }
      [rowR] (by decide),
   multi_row_ops_commit_granularity.2.2.2 exFam "c2" 4⟩

/-! ### Claim C4: cascade delete -/

theorem row_unique {s : Store} (hnd : (s.map (fun r => r.id)).Nodup)
    {r r' : TaskRow} (hr : r ∈ s) (hr' : r' ∈ s) (h : r.id = r'.id) : r = r' :=
  List.inj_on_of_nodup_map hnd hr hr' h

theorem mem_delInit {s : Store} {T : String} {r : TaskRow} :
    r ∈ s.filter (fun r => !(decide (r.id = T))) ↔ r ∈ s ∧ r.id ≠ T := by
  rw [List.mem_filter]
  simp

theorem existsId_iff {t : Store} {p : String} : existsId t p = true ↔ ∃ r ∈ t, r.id = p := by
  unfold existsId
  rw [List.any_eq_true]
  simp

theorem existsId_false {t : Store} {p : String} (h : ∀ r ∈ t, r.id ≠ p) :
    existsId t p = false := by
  unfold existsId
  rw [List.any_eq_false]
  intro r hr
  simp [h r hr]

/-- Every row whose parent chain reaches the deleted id `T` has disappeared
after as many cascade rounds as its rank excess over `T`. -/
theorem cascade_dead (s : Store) (T : String)
    (hnd : (s.map (fun r => r.id)).Nodup)
    (hRI : RefIntact s) {d : String → Nat} (hd : RankedBy s d)
    (hT : ∃ rT, rT ∈ s ∧ rT.id = T) :
    ∀ (x : String), Descendant s x T →
      ∀ (j : Nat), d x ≤ d T + j →
        ∀ r' ∈ pruneIter s j (s.filter (fun r => !(decide (r.id = T)))), r'.id ≠ x := by
  intro x hx
  induction hx using Relation.TransGen.head_induction_on with
  | base hstep =>
    intro j hj r' hr' heq
    obtain ⟨rx, hrx, hrxid, hrxp⟩ := hstep
    have hdx : d T < d _ := hd _ T ⟨rx, hrx, hrxid, hrxp⟩
    obtain ⟨j', rfl⟩ : ∃ j', j = j' + 1 := ⟨j - 1, by omega⟩
    have hstep1 : pruneIter s (j' + 1) (s.filter (fun r => !(decide (r.id = T)))) =
        pruneIter s j' (pruneOnce s (s.filter (fun r => !(decide (r.id = T))))) := rfl
    rw [hstep1] at hr'
    have hr'1 : r' ∈ pruneOnce s (s.filter (fun r => !(decide (r.id = T)))) :=
      (pruneIter_sublist s j' _).subset hr'
    obtain ⟨hrmem, hkeep⟩ := List.mem_filter.1 hr'1
    have hr's : r' ∈ s := (mem_delInit.1 hrmem).1
    have hreq : r' = rx := row_unique hnd hr's hrx (by rw [heq, hrxid])
    have hex0 : existsId (s.filter (fun r => !(decide (r.id = T)))) T = false :=
      existsId_false (fun r hr => (mem_delInit.1 hr).2)
    have hexs : existsId s T = true := existsId_iff.2 hT
    rw [hreq] at hkeep
    unfold keepRow at hkeep
    rw [hrxp] at hkeep
    simp [hex0, hexs] at hkeep
  | ih hstep htail ihy =>
    intro j hj r' hr' heq
    obtain ⟨rx, hrx, hrxid, hrxp⟩ := hstep
    have hdxy : d _ < d _ := hd _ _ ⟨rx, hrx, hrxid, hrxp⟩
    have hdyT : d T < d _ := rank_transGen hd htail
    obtain ⟨j', rfl⟩ : ∃ j', j = j' + 1 := ⟨j - 1, by omega⟩
    rw [pruneIter_succ_comm] at hr'
    obtain ⟨hrmem, hkeep⟩ := List.mem_filter.1 hr'
    have hr's : r' ∈ s :=
      (mem_delInit.1 ((pruneIter_sublist s j' _).subset hrmem)).1
    have hreq : r' = rx := row_unique hnd hr's hrx (by rw [heq, hrxid])
    obtain ⟨q, hq, hqid⟩ := hRI rx hrx _ hrxp
    have hexs : existsId s _ = true := existsId_iff.2 ⟨q, hq, hqid⟩
    have hexm : existsId (pruneIter s j' (s.filter (fun r => !(decide (r.id = T))))) _ = false :=
      existsId_false (ihy j' (by omega))
    rw [hreq] at hkeep
    unfold keepRow at hkeep
    rw [hrxp] at hkeep
    simp [hexm, hexs] at hkeep

/-- Rows that are neither `T` nor descendants of `T` survive every cascade
round. -/
theorem cascade_alive (s : Store) (T : String) (hRI : RefIntact s) :
    ∀ (j : Nat), ∀ r ∈ s, r.id ≠ T → ¬ Descendant s r.id T →
      r ∈ pruneIter s j (s.filter (fun r => !(decide (r.id = T)))) := by
  intro j
  induction j with
  | zero =>
    intro r hr hne _
    exact mem_delInit.2 ⟨hr, hne⟩
  | succ m ihj =>
    intro r hr hne hndesc
    rw [pruneIter_succ_comm]
    refine List.mem_filter.2 ⟨ihj r hr hne hndesc, ?_⟩
    unfold keepRow
    cases hp : r.parentId with
    | none => rfl
    | some p =>
      obtain ⟨q, hq, hqid⟩ := hRI r hr p hp
      have hpT : p ≠ T := by
        intro h0
        subst h0
        exact hndesc (Relation.TransGen.single ⟨r, hr, rfl, hp⟩)
      have hpnd : ¬ Descendant s p T := by
        intro h0
        exact hndesc (Relation.TransGen.head ⟨r, hr, rfl, hp⟩ h0)
      have hqmem := ihj q hq (by rw [hqid]; exact hpT)
        (by rw [hqid]; exact hpnd)
      have hex : existsId (pruneIter s m (s.filter (fun r => !(decide (r.id = T))))) p = true :=
        existsId_iff.2 ⟨q, hqmem, hqid⟩
      simp [hex]

/-- C4.  For a present task `T` in a well-formed acyclic store, `deleteTask`
removes `T`'s row and every row whose parent chain reaches `T`, keeps every
other row with all fields and order untouched, and leaves no record whose
ancestor chain contained `T`. -/
theorem deleteTask_cascade (s : Store) (T : String)
    (hnd : (s.map (fun r => r.id)).Nodup) (hRI : RefIntact s) (hacy : AcyclicRank s)
    (hT : ∃ rT, rT ∈ s ∧ rT.id = T) :
    DeleteCascadeSpec s T := by
  obtain ⟨d, hd, hbound⟩ := hacy
  have hsub : (deleteTask s T).Sublist s := by
    unfold deleteTask
    exact (pruneIter_sublist s s.length _).trans (List.filter_sublist s)
  refine ⟨?_, ?_, ?_, hsub⟩
  · intro r hr
    unfold deleteTask at hr
    have : r ∈ s.filter (fun r => !(decide (r.id = T))) :=
      (pruneIter_sublist s s.length _).subset hr
    exact (mem_delInit.1 this).2
  · intro r _ hdesc hmem
    unfold deleteTask at hmem
    exact cascade_dead s T hnd hRI hd hT r.id hdesc s.length
      (by have := hbound r.id; omega) r hmem rfl
  · intro r hr hne hndesc
    unfold deleteTask
    exact cascade_alive s T hRI s.length r hr hne hndesc

/-- Witness for C4 on the concrete chain `"g" → "m" → "l"`, deleting `"m"`. -/
theorem deleteTask_cascade_witness : DeleteCascadeSpec exChain "m" := by
  apply deleteTask_cascade exChain "m" (by decide)
  · intro r hr p hp
    have hr2 : r = rowG ∨ r = rowM ∨ r = rowL := by simpa [exChain] using hr
    rcases hr2 with rfl | rfl | rfl
    · simp [rowG] at hp
    · have : p = "g" := by simpa [rowM] using hp.symm
      subst this
      exact ⟨rowG, by simp [exChain], rfl⟩
    · have : p = "m" := by simpa [rowL] using hp.symm
      subst this
      exact ⟨rowM, by simp [exChain], rfl⟩
  · refine ⟨dChain, ?_, ?_⟩
    · rintro x y ⟨r, hr, hid, hp⟩
      have hr2 : r = rowG ∨ r = rowM ∨ r = rowL := by simpa [exChain] using hr
      rcases hr2 with rfl | rfl | rfl
      · simp [rowG] at hp
      · have hx : x = "m" := by simpa [rowM] using hid.symm
        have hy : y = "g" := by
          have := hp
          simp [rowM] at this
          exact this.symm
        subst hx
        subst hy
        simp [dChain]
      · have hx : x = "l" := by simpa [rowL] using hid.symm
        have hy : y = "m" := by
          have := hp
          simp [rowL] at this
          exact this.symm
        subst hx
        subst hy
        simp [dChain]
    · intro x
      unfold dChain
      split
      · simp [exChain]
      · split <;> simp [exChain]
  · exact ⟨rowM, by simp [exChain], rfl⟩

/-! ### Claim C3: completeTask and upward propagation -/

/-- Any two fuels above the rank of the start point give the same walk:
the recursion of `autoCompleteParent` terminates on acyclic stores. -/
theorem acp_fuel_congr (now : Nat) :
    ∀ (f g : Nat) (s : Store) (c : String) (d : String → Nat),
      RankedBy s d → d c < f → d c < g →
      autoCompleteParent now f s c = autoCompleteParent now g s c := by
  intro f
  induction f with
  | zero =>
    intro g s c d _ h0 _
    omega
  | succ m ih =>
    intro g s c d hd hf hg
    obtain ⟨g', rfl⟩ : ∃ g', g = g' + 1 := ⟨g - 1, by omega⟩
    simp only [autoCompleteParent]
    cases hfr : findRow s c with
    | none => rfl
    | some row =>
      dsimp only
      cases hp : row.parentId with
      | none => rfl
      | some pid =>
        dsimp only
        by_cases hq : 0 < countChildren s pid ∧ countChildren s pid = countDoneChildren s pid
        · rw [if_pos hq, if_pos hq]
          have hlt : d pid < d c := hd c pid ⟨row, findRow_mem hfr, findRow_id hfr, hp⟩
          exact ih g' (markDone s pid now) pid d (rankedBy_markDone s pid now hd)
            (by omega) (by omega)
        · rw [if_neg hq, if_neg hq]

/-- Master invariant of the propagation walk on a ranked store with
referential integrity: (1) every row is untouched or done-marked, the latter
only at strict ancestors of the start child; (2) any id whose status changed
is a strict ancestor that qualifies in the final state and ends done;
(3) every prefix of the ancestor chain that fully qualifies in the final
state is marked done. -/
theorem acp_master (now : Nat) :
    ∀ (fuel : Nat) (s : Store) (c : String) (d : String → Nat),
      RefIntact s → RankedBy s d → d c < fuel →
      List.Forall₂
        (fun a b => b = a ∨ (b = updRow now a ∧ Relation.TransGen (ParentStep s) c a.id))
        s (autoCompleteParent now fuel s c) ∧
      (∀ p, statusOf (autoCompleteParent now fuel s c) p ≠ statusOf s p →
        Relation.TransGen (ParentStep s) c p ∧
        Qual (autoCompleteParent now fuel s c) p ∧
        statusOf (autoCompleteParent now fuel s c) p = some Status.done) ∧
      (∀ k, (∀ p ∈ (ancChain s fuel c).take k, Qual (autoCompleteParent now fuel s c) p) →
        ∀ p ∈ (ancChain s fuel c).take k,
          statusOf (autoCompleteParent now fuel s c) p = some Status.done) := by
  intro fuel
  induction fuel with
  | zero =>
    intro s c d _ _ h0
    omega
  | succ m ih =>
    intro s c d hRI hd hfuel
    cases hfr : findRow s c with
    | none =>
      have hacp : autoCompleteParent now (m + 1) s c = s := by
        simp only [autoCompleteParent]
        rw [hfr]
      have hch : ancChain s (m + 1) c = [] := by
        simp only [ancChain]
        rw [hfr]
      rw [hacp, hch]
      refine ⟨List.forall₂_same.2 (fun a _ => Or.inl rfl), fun p hne => absurd rfl hne, ?_⟩
      intro k _ p hp
      simp at hp
    | some row =>
      cases hp : row.parentId with
      | none =>
        have hacp : autoCompleteParent now (m + 1) s c = s := by
          simp only [autoCompleteParent]
          rw [hfr]
          dsimp only
          rw [hp]
        have hch : ancChain s (m + 1) c = [] := by
          simp only [ancChain]
          rw [hfr]
          dsimp only
          rw [hp]
        rw [hacp, hch]
        refine ⟨List.forall₂_same.2 (fun a _ => Or.inl rfl), fun p hne => absurd rfl hne, ?_⟩
        intro k _ p hp'
        simp at hp'
      | some pid =>
        have hch : ancChain s (m + 1) c = pid :: ancChain s m pid := by
          simp only [ancChain]
          rw [hfr]
          dsimp only
          rw [hp]
        by_cases hq : 0 < countChildren s pid ∧ countChildren s pid = countDoneChildren s pid
        · -- the walk marks pid and recurses
          have hstep : ParentStep s c pid := ⟨row, findRow_mem hfr, findRow_id hfr, hp⟩
          have hacp : autoCompleteParent now (m + 1) s c =
              autoCompleteParent now m (markDone s pid now) pid := by
            simp only [autoCompleteParent]
            rw [hfr]
            dsimp only
            rw [hp]
            dsimp only
            rw [if_pos hq]
          have hRI1 : RefIntact (markDone s pid now) := refIntact_markDone s pid now hRI
          have hd1 : RankedBy (markDone s pid now) d := rankedBy_markDone s pid now hd
          have hltp : d pid < m := by
            have := hd c pid hstep
            omega
          obtain ⟨IH1, IH2, IH3⟩ := ih (markDone s pid now) pid d hRI1 hd1 hltp
          have htransport : ∀ x y, ParentStep (markDone s pid now) x y → ParentStep s x y :=
            fun x y h => (parentStep_markDone s pid now x y).1 h
          have htg : ∀ {a : String},
              Relation.TransGen (ParentStep (markDone s pid now)) pid a →
              Relation.TransGen (ParentStep s) c a :=
            fun h => Relation.TransGen.head hstep (Relation.TransGen.mono htransport h)
          have hid2 : ∀ a b : TaskRow,
              (b = a ∨ (b = updRow now a ∧
                Relation.TransGen (ParentStep (markDone s pid now)) pid a.id)) →
              b.id = a.id := by
            rintro a b (rfl | ⟨rfl, -⟩)
            · rfl
            · simp [updRow]
          have hdone2 : ∀ a b : TaskRow,
              (b = a ∨ (b = updRow now a ∧
                Relation.TransGen (ParentStep (markDone s pid now)) pid a.id)) →
              a.status = Status.done → b.status = Status.done := by
            rintro a b (rfl | ⟨rfl, -⟩) ha
            · exact ha
            · simp [updRow]
          -- pid's row exists (referential integrity) and ends done
          obtain ⟨q0, hq0, hq0id⟩ := hRI row (findRow_mem hfr) pid hp
          obtain ⟨rq, hrq⟩ := findRow_isSome_of_mem hq0 hq0id
          have hs1pid : statusOf (markDone s pid now) pid = some Status.done := by
            rw [statusOf_markDone_self]
            rw [show statusOf s pid = some rq.status from by unfold statusOf; rw [hrq]; rfl]
            rfl
          have hdonepid :
              statusOf (autoCompleteParent now m (markDone s pid now) pid) pid =
                some Status.done :=
            statusOf_done_of_forall₂ hid2 hdone2 IH1 pid hs1pid
          -- counts at pid transfer from s to the final store
          have hcnt1 := counts_eq_of_forall₂ (p := pid) (markDone_forall₂ s pid now)
            (by
              rintro a b _ (⟨rfl, -⟩ | ⟨rfl, -⟩)
              · rfl
              · simp [updRow])
            (by
              rintro a b ha (⟨rfl, -⟩ | ⟨rfl, haid⟩) hpp
              · rfl
              · exact absurd (hd pid pid ⟨a, ha, haid, hpp⟩) (Nat.lt_irrefl _))
          have hcnt2 := counts_eq_of_forall₂ (p := pid) IH1
            (by
              rintro a b _ (rfl | ⟨rfl, -⟩)
              · rfl
              · simp [updRow])
            (by
              rintro a b ha (rfl | ⟨rfl, htga⟩) hpp
              · rfl
              · have h1 : d pid < d a.id := hd1 a.id pid ⟨a, ha, rfl, hpp⟩
                have h2 : d a.id < d pid := rank_transGen hd1 htga
                omega)
          have hqualpid : Qual (autoCompleteParent now m (markDone s pid now) pid) pid := by
            constructor
            · rw [hcnt2.1, hcnt1.1]
              exact hq.1
            · rw [hcnt2.1, hcnt1.1, hcnt2.2, hcnt1.2]
              exact hq.2
          rw [hacp, hch]
          refine ⟨?_, ?_, ?_⟩
          · -- Forall₂ composition
            apply forall₂_trans_rel ?_ (markDone_forall₂ s pid now) IH1
            rintro a mrow b (⟨rfl, hane⟩ | ⟨rfl, haid⟩) hS
            · rcases hS with rfl | ⟨rfl, htgm⟩
              · exact Or.inl rfl
              · exact Or.inr ⟨rfl, htg htgm⟩
            · rcases hS with rfl | ⟨rfl, htgm⟩
              · exact Or.inr ⟨rfl, haid ▸ Relation.TransGen.single hstep⟩
              · exact Or.inr ⟨rfl, haid ▸ Relation.TransGen.single hstep⟩
          · -- frame and soundness
            intro p hne
            by_cases h1 : p = pid
            · subst h1
              exact ⟨Relation.TransGen.single hstep, hqualpid, hdonepid⟩
            · have heq1 : statusOf (markDone s pid now) p = statusOf s p :=
                statusOf_markDone_ne s now h1
              have hne1 : statusOf (autoCompleteParent now m (markDone s pid now) pid) p ≠
                  statusOf (markDone s pid now) p := by
                rw [heq1]
                exact hne
              obtain ⟨htg1, hqual1, hdone1⟩ := IH2 p hne1
              exact ⟨htg htg1, hqual1, hdone1⟩
          · -- completeness along the chain
            have hchain1 : ancChain (markDone s pid now) m pid = ancChain s m pid :=
              ancChain_markDone s pid now m pid
            intro k hqall p hp'
            cases k with
            | zero => simp at hp'
            | succ k' =>
              rw [List.take_succ_cons] at hp' hqall
              rcases List.mem_cons.1 hp' with rfl | hp''
              · exact hdonepid
              · refine IH3 k' ?_ p ?_
                · intro p' hp3
                  rw [hchain1] at hp3
                  exact hqall p' (List.mem_cons_of_mem _ hp3)
                · rw [hchain1]
                  exact hp''
        · -- the walk stops: parent does not qualify
          have hacp : autoCompleteParent now (m + 1) s c = s := by
            simp only [autoCompleteParent]
            rw [hfr]
            dsimp only
            rw [hp]
            dsimp only
            rw [if_neg hq]
          rw [hacp, hch]
          refine ⟨List.forall₂_same.2 (fun a _ => Or.inl rfl), fun p hne => absurd rfl hne, ?_⟩
          intro k hqall p hp'
          cases k with
          | zero => simp at hp'
          | succ k' =>
            rw [List.take_succ_cons] at hp' hqall
            exact absurd (hqall pid (List.mem_cons_self _ _)) hq

/-- C3.  On an acyclic store with referential integrity, completing an
existing task marks it done and walks strictly upward: rows change only by
done-marking and only at the task itself or its strict ancestors; every
changed ancestor has at least one child and all children done in the final
state; every fully-done-qualifying prefix of the ancestor chain is marked
(the walk does not stop early, and siblings are never touched); and the walk
is independent of any fuel past the store size (termination). -/
theorem completeTask_meets_spec (s : Store) (i : String) (now : Nat)
    (hRI : RefIntact s) (hacy : AcyclicRank s)
    (hex : ∃ r, findRow s i = some r) :
    CompleteTaskSpec s i now := by
  obtain ⟨d, hd, hbound⟩ := hacy
  obtain ⟨r0, hr0⟩ := hex
  have hRI1 : RefIntact (markDone s i now) := refIntact_markDone s i now hRI
  have hd1 : RankedBy (markDone s i now) d := rankedBy_markDone s i now hd
  have hfuel : d i < s.length + 1 := by
    have := hbound i
    omega
  obtain ⟨H1, H2, H3⟩ :=
    acp_master now (s.length + 1) (markDone s i now) i d hRI1 hd1 hfuel
  have hres : completeTask s i now =
      autoCompleteParent now (s.length + 1) (markDone s i now) i := rfl
  have hid2 : ∀ a b : TaskRow,
      (b = a ∨ (b = updRow now a ∧
        Relation.TransGen (ParentStep (markDone s i now)) i a.id)) →
      b.id = a.id := by
    rintro a b (rfl | ⟨rfl, -⟩)
    · rfl
    · simp [updRow]
  have hdone2 : ∀ a b : TaskRow,
      (b = a ∨ (b = updRow now a ∧
        Relation.TransGen (ParentStep (markDone s i now)) i a.id)) →
      a.status = Status.done → b.status = Status.done := by
    rintro a b (rfl | ⟨rfl, -⟩) ha
    · exact ha
    · simp [updRow]
  have htransport : ∀ x y, ParentStep (markDone s i now) x y → ParentStep s x y :=
    fun x y h => (parentStep_markDone s i now x y).1 h
  refine ⟨?_, ?_, ?_, ?_, ?_⟩
  · -- the task itself ends done
    have hs1 : statusOf (markDone s i now) i = some Status.done := by
      rw [statusOf_markDone_self]
      rw [show statusOf s i = some r0.status from by unfold statusOf; rw [hr0]; rfl]
      rfl
    rw [hres]
    exact statusOf_done_of_forall₂ hid2 hdone2 H1 i hs1
  · -- row-wise frame
    rw [hres]
    apply forall₂_trans_rel ?_ (markDone_forall₂ s i now) H1
    rintro a mrow b (⟨rfl, hane⟩ | ⟨rfl, haid⟩) hS
    · rcases hS with rfl | ⟨rfl, htgm⟩
      · exact Or.inl rfl
      · exact Or.inr ⟨rfl, Or.inr (Relation.TransGen.mono htransport htgm)⟩
    · rcases hS with rfl | ⟨rfl, htgm⟩
      · exact Or.inr ⟨rfl, Or.inl haid⟩
      · exact Or.inr ⟨rfl, Or.inl haid⟩
  · -- id-wise frame and soundness
    intro p hne hpi
    rw [hres] at hne ⊢
    have h1 : statusOf (markDone s i now) p = statusOf s p :=
      statusOf_markDone_ne s now hpi
    have hne1 : statusOf (autoCompleteParent now (s.length + 1) (markDone s i now) i) p ≠
        statusOf (markDone s i now) p := by
      rw [h1]
      exact hne
    obtain ⟨htg1, hqual1, hdone1⟩ := H2 p hne1
    exact ⟨Relation.TransGen.mono htransport htg1, hqual1, hdone1⟩
  · -- completeness along the ancestor chain
    have hchain : ancChain (markDone s i now) (s.length + 1) i =
        ancChain s (s.length + 1) i := ancChain_markDone s i now (s.length + 1) i
    intro k hq p hp
    rw [hres]
    refine H3 k ?_ p ?_
    · intro p' hp'
      rw [hchain] at hp'
      exact hq p' hp'
    · rw [hchain]
      exact hp
  · -- fuel independence
    intro fuel hf
    rw [hres]
    exact acp_fuel_congr now fuel (s.length + 1) (markDone s i now) i d hd1
      (by omega) hfuel

/-- Witness for C3 on the concrete parent/child store `exPair`. -/
theorem completeTask_meets_spec_witness : CompleteTaskSpec exPair "c" 7 := by
  apply completeTask_meets_spec exPair "c" 7
  · intro r hr p hp
    have hr2 : r = rowR ∨ r = rowC := by simpa [exPair] using hr
    rcases hr2 with rfl | rfl
    · simp [rowR] at hp
    · have : p = "r" := by simpa [rowC] using hp.symm
      subst this
      exact ⟨rowR, by simp [exPair], rfl⟩
  · refine ⟨dPair, ?_, ?_⟩
    · rintro x y ⟨r, hr, hid, hp⟩
      have hr2 : r = rowR ∨ r = rowC := by simpa [exPair] using hr
      rcases hr2 with rfl | rfl
      · simp [rowR] at hp
      · have hx : x = "c" := by simpa [rowC] using hid.symm
        have hy : y = "r" := by
          have := hp
          simp [rowC] at this
          exact this.symm
        subst hx
        subst hy
        simp [dPair]
    · intro x
      by_cases h : x = "c" <;> simp [dPair, h, exPair]
  · exact ⟨rowC, by decide⟩

end Crumb

